import Mathlib

/-! Verification development for the boundary module of a semantic text chunker
(`src/semchunk/boundaries.py`).  The module consists of three functions:

* `get_split_offsets` — splits a text on a set of fixed-width delimiter
  strings (leftmost match, alternatives tried in the given order) and returns
  the start offset of every resulting piece;
* `get_semantic_bounderies` — computes a hierarchy of boundary-offset levels
  for a document (plain text or an annotated document carrying sentence and
  token start offsets) and enforces the coarse-to-fine subset invariant by
  sorted insertion;
* `adapt_semantic_boundaries` — re-bases a boundary hierarchy onto a chunk
  window, dropping out-of-window offsets and anchoring every level at 0.

Texts are modelled as `List Char`, character offsets as `Int` (Python
integers), and Python exceptions as an `Except` error value.
-/

/-- Error conditions raised by the Python code: `IndexError` from indexing
`delimiters[0]` on an empty list, `AssertionError` from the uniform-length
assertion (the spec's InvalidArgument condition), and `ValueError` from an
unrecognized chunk type (the spec's UnknownGranularity condition). -/
inductive SemErr
  | indexError
  | invalidArgument
  | unknownGranularity
deriving DecidableEq

/-- First delimiter (tried in list order) that is a non-empty literal match at
the start of `s`; mirrors how the alternation pattern built by
`"|".join([re.escape(d) for d in delimiters])` matches at one scan position. -/
def findDelim (delims : List (List Char)) (s : List Char) : Option (List Char) :=
  delims.find? (fun d => decide (d ≠ [] ∧ s.take d.length = d))

/-- Prepend a character to the first piece of a split result (the result of a
split is never empty, so the `[]` case is immaterial). -/
def consHead (c : Char) : List (List Char) → List (List Char)
  | [] => [[c]]
  | p :: ps => (c :: p) :: ps

/-- Fuel-indexed scan underlying the split: at each position, cut at the
first matching delimiter (consuming its characters) or move one character into
the current piece.  Every recursive call consumes at least one character, so a
fuel of `s.length` always suffices and the fuel-exhausted branch is never
reached from `splitOnDelims`. -/
def splitFuel (delims : List (List Char)) : Nat → List Char → List (List Char)
  | 0, s => [s]
  | _ + 1, [] => [[]]
  | fuel + 1, c :: rest =>
    match findDelim delims (c :: rest) with
    | some d => [] :: splitFuel delims fuel ((c :: rest).drop d.length)
    | none => consHead c (splitFuel delims fuel rest)

/-- Leftmost-match, non-overlapping split of `s` on the delimiter
alternatives, as performed by `re.split(split_pattern, text)` with all
delimiters escaped to literals. -/
def splitOnDelims (delims : List (List Char)) (s : List Char) : List (List Char) :=
  splitFuel delims s.length s

/-- The offset-accumulation loop of `get_split_offsets`: appends the running
`start_char`, then advances it by the piece length plus the delimiter
length. -/
def offsetsGo (delimiterLen : Nat) (startChar : Int) : List (List Char) → List Int
  | [] => []
  | p :: ps => startChar :: offsetsGo delimiterLen (startChar + p.length + delimiterLen) ps

/-- Embedding of `get_split_offsets(text, delimiters)`: indexes `delimiters[0]` (IndexError
on an empty list), asserts all delimiters share its length, then splits the
text and returns the start offset of each piece. -/
def get_split_offsets (text : List Char) (delimiters : List (List Char)) :
    Except SemErr (List Int) :=
  match delimiters with
  | [] => .error .indexError
  | d :: ds =>
    if ds.all (fun e => e.length == d.length) then
      .ok (offsetsGo d.length 0 (splitOnDelims (d :: ds) text))
    else
      .error .invalidArgument

/-- The `doc` argument of `get_semantic_bounderies`: either a plain string or
a spaCy `Doc` exposing its text, the `start_char` of each sentence and the
`idx` of each token. -/
inductive Document
  | plain (text : List Char)
  | annotated (text : List Char) (sentStarts : List Int) (tokStarts : List Int)

/-- The text of a document (`doc` itself or `doc.text`). -/
def Document.text : Document → List Char
  | .plain t => t
  | .annotated t _ _ => t

/-- Default `ordered_semantic_chunk_types`. -/
def defaultChunkTypes : List String := ["paragraphs", "sentences", "subparts", "tokens"]

/-- Default `sentence_boundary_chars` `['. ', '? ', '! ']`. -/
def defaultSentenceBoundaryChars : List (List Char) :=
  [['.', ' '], ['?', ' '], ['!', ' ']]

/-- Default `token_boundary_chars` `[' ']`. -/
def defaultTokenBoundaryChars : List (List Char) := [[' ']]

/-- Paragraph delimiters `['\n\n']`. -/
def paragraphDelims : List (List Char) := [['\n', '\n']]

/-- Subpart delimiters `[': ', '; ', ', ']`. -/
def subpartDelims : List (List Char) := [[':', ' '], [';', ' '], [',', ' ']]

/-- Embedding of `bisect.insort_left`: insert `b` before the first element that is `≥ b`. -/
def insortLeft (b : Int) : List Int → List Int
  | [] => [b]
  | x :: xs => if b ≤ x then b :: x :: xs else x :: insortLeft b xs

/-- One (i, j) pass of the subset-enforcement loop: for each `b` in the source
level, insert it into the target level if it is not already present. -/
def enforceStep (src tgt : List Int) : List Int :=
  src.foldl (fun t b => if b ∈ t then t else insortLeft b t) tgt

/-- The full subset-enforcement double loop (`for i ...: for j in i+1 ...`):
level `i` is final when used as a source, and its elements are inserted into
every later level. -/
def enforceAll : List (List Int) → List (List Int)
  | [] => []
  | l :: ls => l :: enforceAll (ls.map (enforceStep l))
termination_by ls => ls.length
decreasing_by simp

/-- One iteration of the chunk-type dispatch in `get_semantic_bounderies`:
paragraphs and subparts always come from the splitter, sentences and tokens
from the precomputed start-offset lists; anything else raises. -/
def levelFor (text : List Char) (sentStarts tokStarts : List Int) (chunkType : String) :
    Except SemErr (List Int) :=
  if chunkType = "paragraphs" then get_split_offsets text paragraphDelims
  else if chunkType = "sentences" then .ok sentStarts
  else if chunkType = "subparts" then get_split_offsets text subpartDelims
  else if chunkType = "tokens" then .ok tokStarts
  else .error .unknownGranularity

/-- The loop over `ordered_semantic_chunk_types`, collecting one level per
requested chunk type and propagating the first error. -/
def getLevels (text : List Char) (sentStarts tokStarts : List Int) :
    List String → Except SemErr (List (List Int))
  | [] => .ok []
  | ct :: cts =>
    match levelFor text sentStarts tokStarts ct with
    | .error e => .error e
    | .ok b =>
      match getLevels text sentStarts tokStarts cts with
      | .error e => .error e
      | .ok bs => .ok (b :: bs)

/-- Embedding of `get_semantic_bounderies(doc, ordered_semantic_chunk_types,
sentence_boundary_chars, token_boundary_chars)`: for a plain string, sentence
and token start offsets are computed up front by the splitter; for an
annotated document they are read off the annotation.  The requested levels are
then collected and the subset invariant enforced. -/
def get_semantic_bounderies (doc : Document) (orderedSemanticChunkTypes : List String)
    (sentenceBoundaryChars tokenBoundaryChars : List (List Char)) :
    Except SemErr (List (List Int)) :=
  match doc with
  | .plain text =>
    match get_split_offsets text sentenceBoundaryChars with
    | .error e => .error e
    | .ok sentenceStartChars =>
      match get_split_offsets text tokenBoundaryChars with
      | .error e => .error e
      | .ok tokenStartChars =>
        match getLevels text sentenceStartChars tokenStartChars orderedSemanticChunkTypes with
        | .error e => .error e
        | .ok levels => .ok (enforceAll levels)
  | .annotated text sentStarts tokStarts =>
    match getLevels text sentStarts tokStarts orderedSemanticChunkTypes with
    | .error e => .error e
    | .ok levels => .ok (enforceAll levels)

/-- The per-offset re-basing of `adapt_semantic_boundaries`: subtract the
chunk offset, and shift by `added_chars_len` when the local offset has reached
`added_chars_end_pos`. -/
def adaptBoundary (chunkCharOffset addedCharsLen addedCharsEndPos b : Int) : Int :=
  let newB := b - chunkCharOffset
  if addedCharsEndPos ≤ newB then newB + addedCharsLen else newB

/-- The inner loop of `adapt_semantic_boundaries` over one level: keep a
re-based offset while it lies in `[0, chunk_len]`, break out of the level as
soon as one exceeds `chunk_len`, and skip negative ones. -/
def adaptLevel (chunkCharOffset chunkLen addedCharsLen addedCharsEndPos : Int) :
    List Int → List Int
  | [] => []
  | b :: bs =>
    let newB := adaptBoundary chunkCharOffset addedCharsLen addedCharsEndPos b
    if 0 ≤ newB ∧ newB ≤ chunkLen then
      newB :: adaptLevel chunkCharOffset chunkLen addedCharsLen addedCharsEndPos bs
    else if chunkLen < newB then
      []
    else
      adaptLevel chunkCharOffset chunkLen addedCharsLen addedCharsEndPos bs

/-- The post-processing of `adapt_semantic_boundaries`: prepend 0 to a level
that is empty or does not start with 0. -/
def ensureZero (l : List Int) : List Int :=
  match l with
  | [] => [0]
  | x :: xs => if x ≠ 0 then 0 :: x :: xs else x :: xs

/-- Embedding of `adapt_semantic_boundaries(boundaries, chunk_char_offset,
chunk_len, added_chars_len, added_chars_end_pos)`. -/
def adapt_semantic_boundaries (boundaries : List (List Int))
    (chunkCharOffset chunkLen addedCharsLen addedCharsEndPos : Int) :
    List (List Int) :=
  (boundaries.map
    (adaptLevel chunkCharOffset chunkLen addedCharsLen addedCharsEndPos)).map ensureZero

/-- The decision the adapter loop makes about a single boundary offset `b`:
`some v` when `b` is kept with re-based value `v`, `none` when it is skipped
or stops the level. -/
def keptBoundary (chunkCharOffset chunkLen addedCharsLen addedCharsEndPos b : Int) :
    Option Int :=
  let newB := adaptBoundary chunkCharOffset addedCharsLen addedCharsEndPos b
  if 0 ≤ newB ∧ newB ≤ chunkLen then some newB else none

/-- Full-scan reference for the adapter's level loop: independently test every
offset of the level against `[0, chunk_len]` (no early exit), keeping the
re-based values.  Follows the spec's description of the filter the early exit
is claimed to be equivalent to. -/
def fullScanLevel (chunkCharOffset chunkLen addedCharsLen addedCharsEndPos : Int)
    (l : List Int) : List Int :=
  (l.filter (fun b =>
      decide (0 ≤ adaptBoundary chunkCharOffset addedCharsLen addedCharsEndPos b ∧
        adaptBoundary chunkCharOffset addedCharsLen addedCharsEndPos b ≤ chunkLen))).map
    (adaptBoundary chunkCharOffset addedCharsLen addedCharsEndPos)

/-! ### Lemmas about the adapter -/

theorem head_ensureZero (l : List Int) : (ensureZero l).head? = some 0 := by
  cases l with
  | nil => rfl
  | cons x xs =>
    by_cases hx : x = 0
    · simp [ensureZero, hx]
    · simp [ensureZero, hx]

theorem mem_ensureZero {x : Int} {l : List Int} (h : x ∈ ensureZero l) : x = 0 ∨ x ∈ l := by
  cases l with
  | nil => simpa [ensureZero] using h
  | cons y ys =>
    by_cases hy : y = 0
    · subst hy
      simp [ensureZero] at h
      tauto
    · simp [ensureZero, hy] at h
      rcases h with h | h | h
      · exact Or.inl h
      · exact Or.inr (List.mem_cons.mpr (Or.inl h))
      · exact Or.inr (List.mem_cons.mpr (Or.inr h))

theorem zero_mem_ensureZero (l : List Int) : (0 : Int) ∈ ensureZero l := by
  cases l with
  | nil => simp [ensureZero]
  | cons y ys =>
    by_cases hy : y = 0
    · subst hy
      simp [ensureZero]
    · simp [ensureZero, hy]

theorem mem_ensureZero_of_mem {x : Int} {l : List Int} (h : x ∈ l) : x ∈ ensureZero l := by
  cases l with
  | nil => simp at h
  | cons y ys =>
    by_cases hy : y = 0
    · subst hy
      simpa [ensureZero] using h
    · simp [ensureZero, hy]
      rcases List.mem_cons.mp h with h1 | h1
      · exact Or.inr (Or.inl h1)
      · exact Or.inr (Or.inr h1)

theorem mem_adaptLevel_range {o len aL aE b : Int} {l : List Int}
    (h : b ∈ adaptLevel o len aL aE l) : 0 ≤ b ∧ b ≤ len := by
  induction l with
  | nil => simp [adaptLevel] at h
  | cons x xs ih =>
    rw [adaptLevel] at h
    by_cases hin : 0 ≤ adaptBoundary o aL aE x ∧ adaptBoundary o aL aE x ≤ len
    · rw [if_pos hin] at h
      rcases List.mem_cons.mp h with h1 | h1
      · exact h1 ▸ hin
      · exact ih h1
    · rw [if_neg hin] at h
      by_cases hgt : len < adaptBoundary o aL aE x
      · rw [if_pos hgt] at h
        simp at h
      · rw [if_neg hgt] at h
        exact ih h

/-- C2: every level of the tuple returned by `adapt_semantic_boundaries` is
non-empty and has 0 as its first element (zero-anchoring). -/
theorem adapter_zero_anchoring (bs : List (List Int)) (o len aL aE : Int) :
    ∀ l ∈ adapt_semantic_boundaries bs o len aL aE, l ≠ [] ∧ l.head? = some 0 := by
  intro l hl
  rcases List.mem_map.mp hl with ⟨m, _, rfl⟩
  refine ⟨?_, head_ensureZero m⟩
  intro hnil
  have := head_ensureZero m
  rw [hnil] at this
  simp at this

theorem adapter_zero_anchoring_witness :
    ([0, 2, 7] : List Int) ≠ [] ∧ ([0, 2, 7] : List Int).head? = some 0 :=
  adapter_zero_anchoring [[0, 10], [0, 3, 5, 10]] 3 7 0 0 [0, 2, 7] (by decide)

/-- C3: for a window with `chunk_len ≥ 0`, every offset in every level
returned by `adapt_semantic_boundaries` lies in `[0, chunk_len]`. -/
theorem adapter_range_bound (bs : List (List Int)) (o len aL aE : Int) (hlen : 0 ≤ len) :
    ∀ l ∈ adapt_semantic_boundaries bs o len aL aE, ∀ b ∈ l, 0 ≤ b ∧ b ≤ len := by
  intro l hl b hb
  rcases List.mem_map.mp hl with ⟨m, hm, rfl⟩
  rcases List.mem_map.mp hm with ⟨lvl, _, rfl⟩
  rcases mem_ensureZero hb with h0 | hmem
  · exact ⟨le_of_eq h0.symm, h0 ▸ hlen⟩
  · exact mem_adaptLevel_range hmem

theorem adapter_range_bound_witness : (0 : Int) ≤ 2 ∧ (2 : Int) ≤ 7 :=
  adapter_range_bound [[0, 10], [0, 3, 5, 10]] 3 7 0 0 (by norm_num)
    [0, 2, 7] (by decide) 2 (by decide)

/-- C5: with `added_chars_end_pos = 0` (and a non-negative count of added
characters), the adapter increases every non-negative local offset
`b - chunk_char_offset` by `added_chars_len` before the range check, and `b`
is kept exactly when `b - chunk_char_offset ≥ 0` and
`b - chunk_char_offset + added_chars_len ≤ chunk_len`, with kept value
`b - chunk_char_offset + added_chars_len`. -/
theorem adapter_insertion_shift (o len aL b : Int) (hL : 0 ≤ aL) :
    adaptBoundary o aL 0 b = (if 0 ≤ b - o then b - o + aL else b - o) ∧
    (∀ v, keptBoundary o len aL 0 b = some v ↔
      0 ≤ b - o ∧ b - o + aL ≤ len ∧ v = b - o + aL) := by
  constructor
  · rfl
  · intro v
    simp only [keptBoundary, adaptBoundary]
    split_ifs <;> simp <;> omega

theorem adapter_insertion_shift_witness : keptBoundary 0 10 5 0 2 = some 7 := by
  have h := adapter_insertion_shift 0 10 5 2 (by norm_num)
  exact (h.2 7).mpr (by norm_num)

/-- The re-basing map is monotone when the count of added characters is
non-negative. -/
theorem adaptBoundary_mono (o aL aE : Int) (hL : 0 ≤ aL) {b c : Int} (h : b ≤ c) :
    adaptBoundary o aL aE b ≤ adaptBoundary o aL aE c := by
  unfold adaptBoundary
  by_cases h1 : aE ≤ b - o
  · rw [if_pos h1, if_pos (by omega)]
    omega
  · rw [if_neg h1]
    by_cases h2 : aE ≤ c - o
    · rw [if_pos h2]
      omega
    · rw [if_neg h2]
      omega

/-- On a strictly ascending level with a non-negative count of added
characters, the early-exit level loop computes the same list as the full
scan. -/
theorem adaptLevel_eq_fullScan (o len aL aE : Int) (l : List Int)
    (hs : l.Pairwise (· < ·)) (hL : 0 ≤ aL) :
    adaptLevel o len aL aE l = fullScanLevel o len aL aE l := by
  induction l with
  | nil => rfl
  | cons b bs ih =>
    have hbs := (List.pairwise_cons.mp hs).2
    have hhead := (List.pairwise_cons.mp hs).1
    rw [adaptLevel]
    by_cases hin : 0 ≤ adaptBoundary o aL aE b ∧ adaptBoundary o aL aE b ≤ len
    · rw [if_pos hin, ih hbs]
      unfold fullScanLevel
      rw [List.filter_cons_of_pos (by simpa using hin)]
      simp
    · rw [if_neg hin]
      by_cases hgt : len < adaptBoundary o aL aE b
      · rw [if_pos hgt]
        unfold fullScanLevel
        rw [List.filter_cons_of_neg (by simpa using hin)]
        have hnil : List.filter (fun x =>
            decide (0 ≤ adaptBoundary o aL aE x ∧ adaptBoundary o aL aE x ≤ len)) bs = [] := by
          rw [List.filter_eq_nil_iff]
          intro x hx
          have hmono := adaptBoundary_mono o aL aE hL (le_of_lt (hhead x hx))
          simp
          intro _
          omega
        rw [hnil]
        simp
      · rw [if_neg hgt, ih hbs]
        unfold fullScanLevel
        rw [List.filter_cons_of_neg (by simpa using hin)]

/-- C4: on a strictly ascending level, the adapter's early exit (stopping the
level as soon as one shifted local offset exceeds `chunk_len`) yields exactly
the kept offsets of a full scan that independently tests every offset of the
level against `[0, chunk_len]`. -/
theorem adapter_early_exit_full_scan (o len aL aE : Int) (l : List Int)
    (hs : l.Pairwise (· < ·)) (hL : 0 ≤ aL) :
    adaptLevel o len aL aE l = fullScanLevel o len aL aE l :=
  adaptLevel_eq_fullScan o len aL aE l hs hL

theorem adapter_early_exit_full_scan_witness :
    adaptLevel 3 7 0 0 [0, 3, 5, 10, 12] = fullScanLevel 3 7 0 0 [0, 3, 5, 10, 12] :=
  adapter_early_exit_full_scan 3 7 0 0 [0, 3, 5, 10, 12] (by decide) (by norm_num)

/-- The `i`-th level of the adapter's output, for `i` in range. -/
theorem adapt_getD (bs : List (List Int)) (o len aL aE : Int) {i : Nat}
    (hi : i < bs.length) :
    (adapt_semantic_boundaries bs o len aL aE).getD i [] =
      ensureZero (adaptLevel o len aL aE (bs.getD i [])) := by
  unfold adapt_semantic_boundaries
  rw [List.getD_eq_getElem _ _ (by simpa using hi), List.getD_eq_getElem _ _ hi]
  simp

/-- C10: the adapter preserves the subset invariant.  For an input hierarchy
with strictly ascending levels satisfying the subset invariant, and a window
with `chunk_len ≥ 0` and `added_chars_len ≥ 0`, the output hierarchy has the
same number of levels and again satisfies the subset invariant. -/
theorem adapter_preserves_subset (bs : List (List Int)) (o len aL aE : Int)
    (hsorted : ∀ l ∈ bs, l.Pairwise (· < ·))
    (hsub : ∀ i j : Nat, i < j → j < bs.length →
      ∀ b ∈ bs.getD i [], b ∈ bs.getD j [])
    (hlen : 0 ≤ len) (hL : 0 ≤ aL) :
    (adapt_semantic_boundaries bs o len aL aE).length = bs.length ∧
    ∀ i j : Nat, i < j → j < bs.length →
      ∀ x ∈ (adapt_semantic_boundaries bs o len aL aE).getD i [],
        x ∈ (adapt_semantic_boundaries bs o len aL aE).getD j [] := by
  constructor
  · simp [adapt_semantic_boundaries]
  · intro i j hij hj x hx
    have hi : i < bs.length := lt_trans hij hj
    rw [adapt_getD bs o len aL aE hi] at hx
    rw [adapt_getD bs o len aL aE hj]
    have hmemi : bs.getD i [] ∈ bs := by
      rw [List.getD_eq_getElem _ _ hi]
      exact List.getElem_mem hi
    have hmemj : bs.getD j [] ∈ bs := by
      rw [List.getD_eq_getElem _ _ hj]
      exact List.getElem_mem hj
    rcases mem_ensureZero hx with rfl | hmem
    · exact zero_mem_ensureZero _
    · rw [adaptLevel_eq_fullScan o len aL aE _ (hsorted _ hmemi) hL] at hmem
      unfold fullScanLevel at hmem
      rcases List.mem_map.mp hmem with ⟨b, hbf, rfl⟩
      have hbl := List.mem_filter.mp hbf
      have hbj : b ∈ bs.getD j [] := hsub i j hij hj b hbl.1
      apply mem_ensureZero_of_mem
      rw [adaptLevel_eq_fullScan o len aL aE _ (hsorted _ hmemj) hL]
      unfold fullScanLevel
      exact List.mem_map.mpr ⟨b, List.mem_filter.mpr ⟨hbj, hbl.2⟩, rfl⟩

theorem adapter_preserves_subset_witness :
    (adapt_semantic_boundaries [[0, 10], [0, 3, 5, 10]] 3 7 0 0).length =
      ([[0, 10], [0, 3, 5, 10]] : List (List Int)).length ∧
    ∀ i j : Nat, i < j → j < ([[0, 10], [0, 3, 5, 10]] : List (List Int)).length →
      ∀ x ∈ (adapt_semantic_boundaries [[0, 10], [0, 3, 5, 10]] 3 7 0 0).getD i [],
        x ∈ (adapt_semantic_boundaries [[0, 10], [0, 3, 5, 10]] 3 7 0 0).getD j [] :=
  adapter_preserves_subset [[0, 10], [0, 3, 5, 10]] 3 7 0 0
    (by decide)
    (by
      intro i j hij hj b hb
      have hj2 : j < 2 := by simpa using hj
      have hij01 : i = 0 ∧ j = 1 := by omega
      obtain ⟨rfl, rfl⟩ := hij01
      simp only [List.getD] at hb ⊢
      simp at hb
      rcases hb with rfl | rfl <;> simp)
    (by norm_num) (by norm_num)

/-! ### Lemmas about the splitter -/

theorem consHead_ne_nil (c : Char) (ps : List (List Char)) : consHead c ps ≠ [] := by
  cases ps <;> simp [consHead]

theorem splitFuel_ne_nil (delims : List (List Char)) (fuel : Nat) (s : List Char) :
    splitFuel delims fuel s ≠ [] := by
  cases fuel with
  | zero => simp [splitFuel]
  | succ f =>
    cases s with
    | nil => simp [splitFuel]
    | cons c rest =>
      simp only [splitFuel]
      cases findDelim delims (c :: rest) with
      | some d => simp
      | none => exact consHead_ne_nil c _

theorem offsetsGo_length (dlen : Nat) (st : Int) (ps : List (List Char)) :
    (offsetsGo dlen st ps).length = ps.length := by
  induction ps generalizing st with
  | nil => rfl
  | cons p ps ih => simp [offsetsGo, ih]

theorem offsetsGo_head (dlen : Nat) (st : Int) (ps : List (List Char)) (h : ps ≠ []) :
    (offsetsGo dlen st ps).head? = some st := by
  cases ps with
  | nil => exact absurd rfl h
  | cons p ps => rfl

theorem offsetsGo_getD_zero (dlen : Nat) (st : Int) (ps : List (List Char)) (h : ps ≠ []) :
    (offsetsGo dlen st ps).getD 0 0 = st := by
  cases ps with
  | nil => exact absurd rfl h
  | cons p ps => rfl

theorem offsetsGo_getD_succ (dlen : Nat) (ps : List (List Char)) (st : Int) (k : Nat)
    (h : k + 1 < ps.length) :
    (offsetsGo dlen st ps).getD (k + 1) 0 =
      (offsetsGo dlen st ps).getD k 0 + (ps.getD k []).length + dlen := by
  induction ps generalizing st k with
  | nil => simp at h
  | cons p ps ih =>
    cases k with
    | zero =>
      have hne : ps ≠ [] := by
        intro he
        rw [he] at h
        simp at h
      simp only [offsetsGo, List.getD_cons_succ, List.getD_cons_zero]
      rw [offsetsGo_getD_zero dlen _ ps hne]
    | succ k =>
      simp only [offsetsGo, List.getD_cons_succ]
      exact ih (st + p.length + dlen) k (by simpa using h)

theorem splitFuel_no_match (delims : List (List Char)) (fuel : Nat) (s : List Char)
    (h : ∀ e ∈ delims, ¬ e <:+: s) : splitFuel delims fuel s = [s] := by
  induction fuel generalizing s with
  | zero => rfl
  | succ f ih =>
    cases s with
    | nil => rfl
    | cons c rest =>
      have hfind : findDelim delims (c :: rest) = none := by
        unfold findDelim
        rw [List.find?_eq_none]
        intro d hd
        simp only [decide_eq_true_eq, not_and]
        intro _ htake
        have hpre : d <+: (c :: rest) := by
          refine ⟨(c :: rest).drop d.length, ?_⟩
          nth_rewrite 1 [← htake]
          exact List.take_append_drop d.length (c :: rest)
        exact h d hd hpre.isInfix
      simp only [splitFuel, hfind]
      rw [ih rest (fun e he hinf => h e he (hinf.trans (List.suffix_cons c rest).isInfix))]
      rfl

/-- C6: a non-empty delimiter list containing two strings of differing
lengths makes `get_split_offsets` fail with the InvalidArgument condition
instead of returning offsets. -/
theorem splitter_invalid_argument (text : List Char) (ds : List (List Char))
    (hne : ds ≠ []) (hdiff : ∃ a ∈ ds, ∃ b ∈ ds, a.length ≠ b.length) :
    get_split_offsets text ds = .error .invalidArgument := by
  cases ds with
  | nil => exact absurd rfl hne
  | cons d rest =>
    by_cases hall : rest.all (fun e => e.length == d.length) = true
    · exfalso
      obtain ⟨a, ha, b, hb, hab⟩ := hdiff
      have key : ∀ x ∈ d :: rest, x.length = d.length := by
        intro x hx
        rcases List.mem_cons.mp hx with rfl | hx
        · rfl
        · simpa using List.all_eq_true.mp hall x hx
      exact hab (by rw [key a ha, key b hb])
    · simp only [get_split_offsets]
      rw [if_neg hall]

theorem splitter_invalid_argument_witness :
    get_split_offsets "x".toList [['a', 'b'], ['c']] = .error .invalidArgument :=
  splitter_invalid_argument "x".toList [['a', 'b'], ['c']] (by simp)
    ⟨['a', 'b'], by simp, ['c'], by simp, by simp⟩

/-- C8: for a non-empty list of equal-length (non-empty) delimiters,
`get_split_offsets` returns one offset per piece of the leftmost-match,
non-overlapping split, the first offset is 0, each subsequent offset is the
previous offset plus the previous piece's length plus the delimiter length, a
text with no delimiter occurrence yields the single offset 0, and splitting
`"a. b? c! "` on `['. ', '? ', '! ']` yields `[0, 3, 6, 9]`. -/
theorem splitter_offsets (text : List Char) (d : List Char) (ds : List (List Char))
    (hu : ∀ e ∈ ds, e.length = d.length) (hnonempty : ∀ e ∈ d :: ds, e ≠ []) :
    get_split_offsets "a. b? c! ".toList defaultSentenceBoundaryChars = .ok [0, 3, 6, 9] ∧
    ∃ offs, get_split_offsets text (d :: ds) = .ok offs ∧
      offs.length = (splitOnDelims (d :: ds) text).length ∧
      offs.head? = some 0 ∧
      (∀ k : Nat, k + 1 < offs.length →
        offs.getD (k + 1) 0 =
          offs.getD k 0 + ((splitOnDelims (d :: ds) text).getD k []).length + d.length) ∧
      ((∀ e ∈ d :: ds, ¬ e <:+: text) → offs = [0]) := by
  constructor
  · simp [get_split_offsets, defaultSentenceBoundaryChars]
    decide
  · have hall : ds.all (fun e => e.length == d.length) = true := by
      rw [List.all_eq_true]
      intro e he
      simpa using hu e he
    refine ⟨offsetsGo d.length 0 (splitOnDelims (d :: ds) text), ?_, ?_, ?_, ?_, ?_⟩
    · simp [get_split_offsets, hall]
    · exact offsetsGo_length d.length 0 _
    · exact offsetsGo_head d.length 0 _ (splitFuel_ne_nil _ _ _)
    · intro k hk
      rw [offsetsGo_length] at hk
      exact offsetsGo_getD_succ d.length _ 0 k hk
    · intro hnoc
      rw [splitOnDelims, splitFuel_no_match (d :: ds) text.length text hnoc]
      simp [offsetsGo]

theorem splitter_offsets_witness :
    get_split_offsets "a. b? c! ".toList defaultSentenceBoundaryChars = .ok [0, 3, 6, 9] ∧
    ∃ offs, get_split_offsets "a, b".toList ([',', ' '] :: []) = .ok offs ∧
      offs.length = (splitOnDelims ([',', ' '] :: []) "a, b".toList).length ∧
      offs.head? = some 0 ∧
      (∀ k : Nat, k + 1 < offs.length →
        offs.getD (k + 1) 0 =
          offs.getD k 0 + ((splitOnDelims ([',', ' '] :: []) "a, b".toList).getD k []).length +
            ([',', ' '] : List Char).length) ∧
      ((∀ e ∈ [',', ' '] :: ([] : List (List Char)), ¬ e <:+: "a, b".toList) → offs = [0]) :=
  splitter_offsets "a, b".toList [',', ' '] [] (by simp) (by simp)

/-! ### Lemmas about the subset-enforcement loop -/

theorem mem_insortLeft {x b : Int} {l : List Int} :
    x ∈ insortLeft b l ↔ x = b ∨ x ∈ l := by
  induction l with
  | nil => simp [insortLeft]
  | cons y ys ih =>
    by_cases h : b ≤ y
    · simp [insortLeft, h]
    · simp [insortLeft, h, ih]
      tauto

theorem mem_foldl_insert {x : Int} (src : List Int) (tgt : List Int) (hx : x ∈ tgt) :
    x ∈ src.foldl (fun t b => if b ∈ t then t else insortLeft b t) tgt := by
  induction src generalizing tgt with
  | nil => exact hx
  | cons b src ih =>
    apply ih
    by_cases hb : b ∈ tgt
    · simpa [hb] using hx
    · simp only [hb, if_false]
      exact mem_insortLeft.mpr (Or.inr hx)

theorem mem_enforceStep_of_mem_tgt {x : Int} {src tgt : List Int} (hx : x ∈ tgt) :
    x ∈ enforceStep src tgt :=
  mem_foldl_insert src tgt hx

theorem mem_enforceStep_of_mem_src {b : Int} {src tgt : List Int} (hb : b ∈ src) :
    b ∈ enforceStep src tgt := by
  unfold enforceStep
  induction src generalizing tgt with
  | nil => simp at hb
  | cons s src ih =>
    rw [List.foldl_cons]
    rcases List.mem_cons.mp hb with rfl | hb
    · apply mem_foldl_insert
      by_cases hs : b ∈ tgt
      · rw [if_pos hs]
        exact hs
      · rw [if_neg hs]
        exact mem_insortLeft.mpr (Or.inl rfl)
    · exact ih hb

theorem enforceAll_length (ls : List (List Int)) : (enforceAll ls).length = ls.length := by
  induction ls using enforceAll.induct with
  | case1 => rw [enforceAll]
  | case2 l ls ih =>
    rw [enforceAll]
    simpa using ih

theorem mem_getD_enforceAll (ls : List (List Int)) :
    ∀ (k : Nat) (x : Int), x ∈ ls.getD k [] → x ∈ (enforceAll ls).getD k [] := by
  induction ls using enforceAll.induct with
  | case1 =>
    intro k x hx
    rw [enforceAll]
    exact hx
  | case2 l ls ih =>
    intro k x hx
    rw [enforceAll]
    cases k with
    | zero => simpa using hx
    | succ k =>
      simp only [List.getD_cons_succ] at hx ⊢
      by_cases hk : k < ls.length
      · apply ih k x
        rw [List.getD_eq_getElem _ _ (by simpa using hk)]
        rw [List.getD_eq_getElem _ _ hk] at hx
        simp only [List.getElem_map]
        exact mem_enforceStep_of_mem_tgt hx
      · rw [List.getD_eq_default _ _ (by omega)] at hx
        simp at hx

theorem enforceAll_subset (ls : List (List Int)) :
    ∀ (i j : Nat), i < j → j < ls.length → ∀ b : Int,
      b ∈ (enforceAll ls).getD i [] → b ∈ (enforceAll ls).getD j [] := by
  induction ls using enforceAll.induct with
  | case1 =>
    intro i j hij hj
    simp at hj
  | case2 l ls ih =>
    intro i j hij hj b hb
    rw [enforceAll] at hb ⊢
    cases i with
    | zero =>
      cases j with
      | zero => omega
      | succ j =>
        simp only [List.getD_cons_zero] at hb
        simp only [List.getD_cons_succ]
        have hjl : j < ls.length := by simpa using hj
        apply mem_getD_enforceAll
        rw [List.getD_eq_getElem _ _ (by simpa using hjl)]
        simp only [List.getElem_map]
        exact mem_enforceStep_of_mem_src hb
    | succ i =>
      cases j with
      | zero => omega
      | succ j =>
        simp only [List.getD_cons_succ] at hb ⊢
        exact ih i j (by omega) (by simpa using Nat.lt_of_succ_lt_succ hj) b hb

/-! ### Lemmas about the extractor -/

theorem sentenceDefaults_ok (text : List Char) :
    get_split_offsets text defaultSentenceBoundaryChars =
      .ok (offsetsGo 2 0 (splitOnDelims defaultSentenceBoundaryChars text)) := by
  simp [get_split_offsets, defaultSentenceBoundaryChars]

theorem tokenDefaults_ok (text : List Char) :
    get_split_offsets text defaultTokenBoundaryChars =
      .ok (offsetsGo 1 0 (splitOnDelims defaultTokenBoundaryChars text)) := by
  simp [get_split_offsets, defaultTokenBoundaryChars]

theorem levelFor_known (text : List Char) (s t : List Int) (ct : String)
    (h : ct ∈ defaultChunkTypes) : ∃ b, levelFor text s t ct = .ok b := by
  simp only [defaultChunkTypes, List.mem_cons, List.mem_singleton] at h
  rcases h with rfl | rfl | rfl | rfl | h
  · exact ⟨offsetsGo 2 0 (splitOnDelims paragraphDelims text),
      by simp [levelFor, get_split_offsets, paragraphDelims]⟩
  · exact ⟨s, by simp [levelFor]⟩
  · exact ⟨offsetsGo 2 0 (splitOnDelims subpartDelims text),
      by simp [levelFor, get_split_offsets, subpartDelims]⟩
  · exact ⟨t, by simp [levelFor]⟩
  · simp at h

theorem levelFor_unknown (text : List Char) (s t : List Int) (ct : String)
    (h : ct ∉ defaultChunkTypes) :
    levelFor text s t ct = .error .unknownGranularity := by
  simp only [defaultChunkTypes, List.mem_cons, List.mem_singleton, not_or] at h
  obtain ⟨h1, h2, h3, h4⟩ := h
  simp [levelFor, h1, h2, h3, h4]

theorem getLevels_known (text : List Char) (s t : List Int) (cts : List String)
    (h : ∀ ct ∈ cts, ct ∈ defaultChunkTypes) :
    ∃ ls, getLevels text s t cts = .ok ls := by
  induction cts with
  | nil => exact ⟨[], rfl⟩
  | cons ct cts ih =>
    obtain ⟨b, hb⟩ := levelFor_known text s t ct (h ct (by simp))
    obtain ⟨ls, hls⟩ := ih (fun x hx => h x (by simp [hx]))
    exact ⟨b :: ls, by simp [getLevels, hb, hls]⟩

theorem getLevels_unknown (text : List Char) (s t : List Int) (cts : List String)
    (h : ∃ ct ∈ cts, ct ∉ defaultChunkTypes) :
    getLevels text s t cts = .error .unknownGranularity := by
  induction cts with
  | nil =>
    obtain ⟨ct, hmem, _⟩ := h
    simp at hmem
  | cons c cts ih =>
    obtain ⟨ct, hmem, hno⟩ := h
    by_cases hc : c ∈ defaultChunkTypes
    · obtain ⟨b, hb⟩ := levelFor_known text s t c hc
      have hct : ct ∈ cts := by
        rcases List.mem_cons.mp hmem with rfl | hm
        · exact absurd hc hno
        · exact hm
      simp [getLevels, hb, ih ⟨ct, hct, hno⟩]
    · simp [getLevels, levelFor_unknown text s t c hc]

/-- C7: requesting a granularity name outside
{"paragraphs", "sentences", "subparts", "tokens"} makes
`get_semantic_bounderies` (with the default boundary characters) fail with the
UnknownGranularity condition instead of returning a hierarchy. -/
theorem extractor_unknown_granularity (doc : Document) (gs : List String)
    (h : ∃ g ∈ gs, g ∉ defaultChunkTypes) :
    get_semantic_bounderies doc gs defaultSentenceBoundaryChars
      defaultTokenBoundaryChars = .error .unknownGranularity := by
  cases doc with
  | plain text =>
    simp [get_semantic_bounderies, sentenceDefaults_ok, tokenDefaults_ok,
      getLevels_unknown text _ _ gs h]
  | annotated text s t =>
    simp [get_semantic_bounderies, getLevels_unknown text s t gs h]

theorem extractor_unknown_granularity_witness :
    get_semantic_bounderies (.plain "x".toList) ["paragraphs", "lines"]
      defaultSentenceBoundaryChars defaultTokenBoundaryChars =
      .error .unknownGranularity :=
  extractor_unknown_granularity (.plain "x".toList) ["paragraphs", "lines"]
    ⟨"lines", by simp, by simp [defaultChunkTypes]⟩

/-- C9: the "subparts" level is always the splitter's output over the
document's text with delimiters `[': ', '; ', ', ']`, never derived from
annotation: for the request `["subparts"]`, both a plain document and an
annotated document with the same text yield exactly the one-level hierarchy
containing those splitter offsets. -/
theorem extractor_subparts_heuristic (text : List Char) (s t : List Int) :
    ∃ offs, get_split_offsets text subpartDelims = .ok offs ∧
      get_semantic_bounderies (.plain text) ["subparts"]
        defaultSentenceBoundaryChars defaultTokenBoundaryChars = .ok [offs] ∧
      get_semantic_bounderies (.annotated text s t) ["subparts"]
        defaultSentenceBoundaryChars defaultTokenBoundaryChars = .ok [offs] := by
  refine ⟨offsetsGo 2 0 (splitOnDelims subpartDelims text), ?_, ?_, ?_⟩
  · simp [get_split_offsets, subpartDelims]
  · simp [get_semantic_bounderies, getLevels, levelFor, get_split_offsets, subpartDelims,
      enforceAll, defaultSentenceBoundaryChars, defaultTokenBoundaryChars]
  · simp [get_semantic_bounderies, getLevels, levelFor, get_split_offsets,
      subpartDelims, enforceAll]

/-- C1: for every document (plain or annotated) and every granularity list
drawn from {"paragraphs", "sentences", "subparts", "tokens"},
`get_semantic_bounderies` (with the default boundary characters) returns a
hierarchy satisfying the subset invariant: for all levels i < j, every offset
of level i is present in level j. -/
theorem extractor_subset_invariant (doc : Document) (gs : List String)
    (h : ∀ g ∈ gs, g ∈ defaultChunkTypes) :
    ∃ bs, get_semantic_bounderies doc gs defaultSentenceBoundaryChars
        defaultTokenBoundaryChars = .ok bs ∧
      ∀ i j : Nat, i < j → j < bs.length → ∀ b ∈ bs.getD i [], b ∈ bs.getD j [] := by
  cases doc with
  | plain text =>
    obtain ⟨ls, hls⟩ := getLevels_known text
      (offsetsGo 2 0 (splitOnDelims defaultSentenceBoundaryChars text))
      (offsetsGo 1 0 (splitOnDelims defaultTokenBoundaryChars text)) gs h
    refine ⟨enforceAll ls, ?_, ?_⟩
    · simp [get_semantic_bounderies, sentenceDefaults_ok, tokenDefaults_ok, hls]
    · intro i j hij hj b hb
      rw [enforceAll_length] at hj
      exact enforceAll_subset ls i j hij hj b hb
  | annotated text s t =>
    obtain ⟨ls, hls⟩ := getLevels_known text s t gs h
    refine ⟨enforceAll ls, ?_, ?_⟩
    · simp [get_semantic_bounderies, hls]
    · intro i j hij hj b hb
      rw [enforceAll_length] at hj
      exact enforceAll_subset ls i j hij hj b hb

theorem extractor_subset_invariant_witness :
    ∃ bs, get_semantic_bounderies (.plain "a b".toList) defaultChunkTypes
        defaultSentenceBoundaryChars defaultTokenBoundaryChars = .ok bs ∧
      ∀ i j : Nat, i < j → j < bs.length → ∀ b ∈ bs.getD i [], b ∈ bs.getD j [] :=
  extractor_subset_invariant (.plain "a b".toList) defaultChunkTypes (fun g hg => hg)
